import Mathlib

/-!
Shallow embedding of the arbiter scoring-and-scheduling subsystem
(`internal/scorer/scorer.go`, `internal/scheduler/scheduler.go`,
`internal/models`).  Go `float64` arithmetic is modelled over `ℚ`;
fallible calls (`(T, error)` in Go) are modelled as `Except String T`.
Fields the scorer never reads (the adapters' `Exchange`/`Pair` labels,
`NextFunding`, `UpdatedAt` timestamps) are omitted from the records.
-/

namespace Arbiter

/-- `models.FundingRate`, restricted to the field the scorer reads. -/
structure FundingRate where
  rate : ℚ
  deriving DecidableEq, Repr

/-- `models.Spread`: best bid, best ask, and the `spread` field the
adapters fill with `ask - bid`. -/
structure Spread where
  bid : ℚ
  ask : ℚ
  spread : ℚ
  deriving DecidableEq, Repr

/-- `models.OrderBookDepth`. -/
structure OrderBookDepth where
  bidDepth : ℚ
  askDepth : ℚ
  deriving DecidableEq, Repr

/-- `models.ExchangeScore` (without the `UpdatedAt` wall-clock field). -/
structure ExchangeScore where
  exchange : String
  pair : String
  fundingRate : ℚ
  spreadPct : ℚ
  rawBidDepth : ℚ
  rawAskDepth : ℚ
  depthScore : ℚ
  compositeScore : ℚ
  deriving DecidableEq, Repr

/-- `exchange.Exchange`: one market source, modelled by its (deterministic,
possibly failing) responses per pair.  The `context.Context` argument of the
Go interface carries no data relevant to the scoring algorithm and is
dropped. -/
structure Exchange where
  name : String
  getFundingRate : String → Except String FundingRate
  getSpread : String → Except String Spread
  getOrderBookDepth : String → Except String OrderBookDepth

/-- `scorer.fetchAndScore`: calls the three endpoints for one exchange,
returning on the first failing call (Go's `if err != nil` ladder), and
builds the provisional `ExchangeScore` (composite still zero, Go's zero
value for an omitted struct field). -/
def fetchAndScore (ex : Exchange) (pair : String) : Except String ExchangeScore :=
  match ex.getFundingRate pair with
  | .error e => .error ("[" ++ ex.name ++ "] funding rate error: " ++ e)
  | .ok funding =>
    match ex.getSpread pair with
    | .error e => .error ("[" ++ ex.name ++ "] spread error: " ++ e)
    | .ok spread =>
      match ex.getOrderBookDepth pair with
      | .error e => .error ("[" ++ ex.name ++ "] depth error: " ++ e)
      | .ok depth =>
        let spreadPct : ℚ := if spread.bid > 0 then spread.spread / spread.bid * 100 else 0
        .ok
          { exchange := ex.name
            pair := pair
            fundingRate := funding.rate
            spreadPct := spreadPct
            rawBidDepth := depth.bidDepth
            rawAskDepth := depth.askDepth
            depthScore := depth.bidDepth + depth.askDepth
            compositeScore := 0 }

/-- Inner loop of `scorer.rankScores` for a fixed outer index: scanning the
tail with a running current element `x` (the value at position `i`),
swapping whenever a strictly larger composite is found.  Returns the final
value left at position `i` together with the rewritten tail. -/
def selectMax (x : ExchangeScore) : List ExchangeScore → ExchangeScore × List ExchangeScore
  | [] => (x, [])
  | y :: ys =>
    if y.compositeScore > x.compositeScore then
      ((selectMax y ys).1, x :: (selectMax y ys).2)
    else
      ((selectMax x ys).1, y :: (selectMax x ys).2)

theorem selectMax_snd_length (x : ExchangeScore) (ys : List ExchangeScore) :
    (selectMax x ys).2.length = ys.length := by
  induction ys generalizing x with
  | nil => rfl
  | cons y ys ih =>
    by_cases h : y.compositeScore > x.compositeScore <;>
      simp [selectMax, h, ih]

/-- Outer loop of `scorer.rankScores`, structurally recursive on the number
of remaining outer iterations (the Go loop runs the inner scan once per
index `i`; `selectMax` keeps the tail's length, so starting the fuel at the
list's length never exhausts it). -/
def rankScoresAux : Nat → List ExchangeScore → List ExchangeScore
  | _, [] => []
  | 0, l => l
  | n + 1, x :: xs => (selectMax x xs).1 :: rankScoresAux n (selectMax x xs).2

/-- `scorer.rankScores`: the in-place double-loop swap sort, highest
`CompositeScore` first. -/
def rankScores (l : List ExchangeScore) : List ExchangeScore :=
  rankScoresAux l.length l

theorem rankScoresAux_congr :
    ∀ (n m : Nat) (l : List ExchangeScore), l.length ≤ n → l.length ≤ m →
      rankScoresAux n l = rankScoresAux m l := by
  intro n
  induction n with
  | zero =>
    intro m l h1 _
    cases l with
    | nil => cases m <;> rfl
    | cons x xs => simp at h1
  | succ n ih =>
    intro m l h1 h2
    cases l with
    | nil => cases m <;> rfl
    | cons x xs =>
      cases m with
      | zero => simp at h2
      | succ m =>
        show (selectMax x xs).1 :: rankScoresAux n (selectMax x xs).2
            = (selectMax x xs).1 :: rankScoresAux m (selectMax x xs).2
        have hlen : (selectMax x xs).2.length = xs.length := selectMax_snd_length x xs
        have hn : (selectMax x xs).2.length ≤ n := by
          rw [hlen]; exact Nat.succ_le_succ_iff.1 (by simpa using h1)
        have hm : (selectMax x xs).2.length ≤ m := by
          rw [hlen]; exact Nat.succ_le_succ_iff.1 (by simpa using h2)
        rw [ih m _ hn hm]

theorem rankScores_nil : rankScores [] = [] := rfl

theorem rankScores_cons (x : ExchangeScore) (xs : List ExchangeScore) :
    rankScores (x :: xs) = (selectMax x xs).1 :: rankScores (selectMax x xs).2 := by
  show rankScoresAux (xs.length + 1) (x :: xs) = _
  show (selectMax x xs).1 :: rankScoresAux xs.length (selectMax x xs).2 = _
  rw [rankScores,
    rankScoresAux_congr xs.length (selectMax x xs).2.length (selectMax x xs).2
      (le_of_eq (selectMax_snd_length x xs)) (le_refl _)]

/-- The running-minimum loop of `scorer.normalizeDepth`
(`if s.DepthScore < minD { minD = s.DepthScore }`). -/
def minDepthAux (d : ℚ) (l : List ExchangeScore) : ℚ :=
  l.foldl (fun m s => min m s.depthScore) d

/-- The running-maximum loop of `scorer.normalizeDepth`. -/
def maxDepthAux (d : ℚ) (l : List ExchangeScore) : ℚ :=
  l.foldl (fun m s => max m s.depthScore) d

/-- The per-entry body of `scorer.normalizeDepth`'s second loop. -/
def normEntry (minD maxD : ℚ) (s : ExchangeScore) : ExchangeScore :=
  if maxD = minD then { s with depthScore := 1 }
  else { s with depthScore := (s.depthScore - minD) / (maxD - minD) }

/-- `scorer.normalizeDepth`: min–max normalization of `DepthScore` across
the list (Go indexes `scores[0]`, so the list is split head/tail; Go never
calls it on an empty slice, where it would panic — the `[]` case here is
unreachable from `ScoreAll`). -/
def normalizeDepth : List ExchangeScore → List ExchangeScore
  | [] => []
  | s0 :: rest =>
    (s0 :: rest).map
      (normEntry (minDepthAux s0.depthScore rest) (maxDepthAux s0.depthScore rest))

/-- The composite-score assignment loop of `scorer.ScoreAll`. -/
def setComposite (s : ExchangeScore) : ExchangeScore :=
  { s with compositeScore :=
      (1 / (1 + s.fundingRate * 100)) * 0.4 +
      (1 / (1 + s.spreadPct)) * 0.4 +
      s.depthScore * 0.2 }

/-- The fan-in collection loop of `scorer.ScoreAll`: the scores of the
exchanges whose three calls all succeeded, failures skipped. -/
def survivors (exs : List Exchange) (pair : String) : List ExchangeScore :=
  exs.filterMap (fun ex => (fetchAndScore ex pair).toOption)

/-- `scorer.ScoreAll`: fan-out to every exchange, drop the failures, fail
with the aggregate error when nothing survived, otherwise normalize depth,
compute composites and rank.  The fan-in channel delivers results in an
arbitrary arrival order; the embedding processes them in list order, and
arrival-order independence is proved separately by quantifying over
permutations of `exs`. -/
def ScoreAll (exs : List Exchange) (pair : String) : Except String (List ExchangeScore) :=
  let scores := survivors exs pair
  if scores.isEmpty then
    .error ("no exchange data available for pair " ++ pair)
  else
    .ok (rankScores ((normalizeDepth scores).map setComposite))

/-- The minimum `depthScore` a run of `normalizeDepth` computes over a
cycle's survivor list (`scores[0]` seeded, scanned over the tail). -/
def cycleMinDepth : List ExchangeScore → ℚ
  | [] => 0
  | s0 :: rest => minDepthAux s0.depthScore rest

/-- The maximum `depthScore` a run of `normalizeDepth` computes over a
cycle's survivor list. -/
def cycleMaxDepth : List ExchangeScore → ℚ
  | [] => 0
  | s0 :: rest => maxDepthAux s0.depthScore rest

/-- Min–max normalization of one raw depth value against the cycle's
minimum and maximum, with the all-equal case pinned to `1`. -/
def minmaxNorm (minD maxD d : ℚ) : ℚ :=
  if maxD = minD then 1 else (d - minD) / (maxD - minD)

/-- The scheduler's cache (`Scheduler.cache`): pair → latest published list.
A missing key is `none` (Go: map lookup with `ok=false`). -/
def Cache : Type := String → Option (List ExchangeScore)

/-- `scheduler.GetScores`: the read accessor.  A missing pair returns Go's
zero value `nil` (here `[]`) and `found = false`. -/
def GetScores (c : Cache) (pair : String) : List ExchangeScore × Bool :=
  match c pair with
  | some scores => (scores, true)
  | none => ([], false)

/-- One iteration of `scheduler.refresh`'s loop body: run `ScoreAll` for
one pair; on success overwrite that pair's cache entry, on error leave the
cache untouched. -/
def publish (exs : List Exchange) (c : Cache) (p : String) : Cache :=
  match ScoreAll exs p with
  | .ok scores => fun q => if q = p then some scores else c q
  | .error _ => c

/-- `scheduler.refresh`: sequentially for each configured pair, run
`ScoreAll` and publish the result.  The exchanges' responses during this
cycle are the `exs` argument. -/
def refresh (exs : List Exchange) (pairs : List String) (cache : Cache) : Cache :=
  pairs.foldl (publish exs) cache

/-- A market source whose three calls always succeed with fixed values
(`spread` filled with `ask - bid` as every adapter in
`internal/exchange` does). -/
def constExchange (nm : String) (fr bid ask bd ad : ℚ) : Exchange :=
  { name := nm
    getFundingRate := fun _ => .ok { rate := fr }
    getSpread := fun _ => .ok { bid := bid, ask := ask, spread := ask - bid }
    getOrderBookDepth := fun _ => .ok { bidDepth := bd, askDepth := ad } }

/-- A market source whose every call fails. -/
def downExchange (nm : String) : Exchange :=
  { name := nm
    getFundingRate := fun _ => .error "connection refused"
    getSpread := fun _ => .error "connection refused"
    getOrderBookDepth := fun _ => .error "connection refused" }

/-- Source A of the spec's worked scenario: funding 0.0001, spread 0.05 %
(bid 100, ask 100.05), total depth 100. -/
def exA : Exchange := constExchange "A" 0.0001 100 100.05 50 50

/-- Source B of the spec's worked scenario: funding 0.0005, spread 0.10 %
(bid 100, ask 100.10), total depth 300. -/
def exB : Exchange := constExchange "B" 0.0005 100 100.10 150 150

/-- The entry `ScoreAll [exA, exB] "X"` produces for source A. -/
def resA : ExchangeScore :=
  { exchange := "A", pair := "X", fundingRate := 1 / 10000, spreadPct := 1 / 20
    rawBidDepth := 50, rawAskDepth := 50, depthScore := 0, compositeScore := 1648 / 2121 }

/-- The entry `ScoreAll [exA, exB] "X"` produces for source B. -/
def resB : ExchangeScore :=
  { exchange := "B", pair := "X", fundingRate := 1 / 2000, spreadPct := 1 / 10
    rawBidDepth := 150, rawAskDepth := 150, depthScore := 1, compositeScore := 1091 / 1155 }

/-- The single entry `ScoreAll [exA, downExchange "D"] "X"` produces. -/
def resA1 : ExchangeScore :=
  { exchange := "A", pair := "X", fundingRate := 1 / 10000, spreadPct := 1 / 20
    rawBidDepth := 50, rawAskDepth := 50, depthScore := 1, compositeScore := 10361 / 10605 }

/-- The provisional record source A yields. -/
def sA0 : ExchangeScore :=
  { exchange := "A", pair := "X", fundingRate := 1 / 10000, spreadPct := 1 / 20
    rawBidDepth := 50, rawAskDepth := 50, depthScore := 100, compositeScore := 0 }

/-- The provisional record source B yields. -/
def sB0 : ExchangeScore :=
  { exchange := "B", pair := "X", fundingRate := 1 / 2000, spreadPct := 1 / 10
    rawBidDepth := 150, rawAskDepth := 150, depthScore := 300, compositeScore := 0 }

theorem fetchAndScore_exA_eval : fetchAndScore exA "X" = .ok sA0 := by
  simp [fetchAndScore, exA, constExchange, sA0]
  norm_num

theorem fetchAndScore_exB_eval : fetchAndScore exB "X" = .ok sB0 := by
  simp [fetchAndScore, exB, constExchange, sB0]
  norm_num

theorem fetchAndScore_down_eval (nm pair : String) :
    fetchAndScore (downExchange nm) pair =
      .error ("[" ++ nm ++ "] funding rate error: " ++ "connection refused") := by
  simp [fetchAndScore, downExchange]

theorem survivors_AB_eval : survivors [exA, exB] "X" = [sA0, sB0] := by
  simp [survivors, List.filterMap_cons, fetchAndScore_exA_eval, fetchAndScore_exB_eval,
    Except.toOption]

theorem survivors_BA_eval : survivors [exB, exA] "X" = [sB0, sA0] := by
  simp [survivors, List.filterMap_cons, fetchAndScore_exA_eval, fetchAndScore_exB_eval,
    Except.toOption]

theorem survivors_A_eval : survivors [exA] "X" = [sA0] := by
  simp [survivors, List.filterMap_cons, fetchAndScore_exA_eval, Except.toOption]

theorem survivors_AD_eval : survivors [exA, downExchange "D"] "X" = [sA0] := by
  simp [survivors, List.filterMap_cons, fetchAndScore_exA_eval, fetchAndScore_down_eval,
    Except.toOption]

theorem survivors_D_eval : survivors [downExchange "D"] "X" = [] := by
  simp [survivors, List.filterMap_cons, fetchAndScore_down_eval, Except.toOption]

theorem scoreAll_AB_eval : ScoreAll [exA, exB] "X" = .ok [resB, resA] := by
  simp only [ScoreAll, survivors_AB_eval]
  norm_num [sA0, sB0, normalizeDepth, minDepthAux, maxDepthAux, normEntry, setComposite,
    rankScores, rankScoresAux, selectMax, min_def, max_def, resA, resB]

theorem scoreAll_BA_eval : ScoreAll [exB, exA] "X" = .ok [resB, resA] := by
  simp only [ScoreAll, survivors_BA_eval]
  norm_num [sA0, sB0, normalizeDepth, minDepthAux, maxDepthAux, normEntry, setComposite,
    rankScores, rankScoresAux, selectMax, min_def, max_def, resA, resB]

theorem scoreAll_A_eval : ScoreAll [exA] "X" = .ok [resA1] := by
  simp only [ScoreAll, survivors_A_eval]
  norm_num [sA0, normalizeDepth, minDepthAux, maxDepthAux, normEntry, setComposite,
    rankScores, rankScoresAux, selectMax, min_def, max_def, resA1]

theorem scoreAll_AD_eval : ScoreAll [exA, downExchange "D"] "X" = .ok [resA1] := by
  simp only [ScoreAll, survivors_AD_eval]
  norm_num [sA0, normalizeDepth, minDepthAux, maxDepthAux, normEntry, setComposite,
    rankScores, rankScoresAux, selectMax, min_def, max_def, resA1]

theorem scoreAll_D_eval :
    ScoreAll [downExchange "D"] "X" = .error "no exchange data available for pair X" := by
  simp [ScoreAll, survivors_D_eval]

/-- One survivor's final record: depth normalized against the cycle's
min/max, then the composite filled in.  `ScoreAll`'s post-collection
pipeline is exactly `rankScores ∘ map finalize`. -/
def finalize (minD maxD : ℚ) (s : ExchangeScore) : ExchangeScore :=
  setComposite (normEntry minD maxD s)

/-! ### Generic facts about running minima / maxima -/

theorem foldl_min_init (d : ℚ) (l : List ℚ) : l.foldl min d ≤ d := by
  induction l generalizing d with
  | nil => exact le_refl d
  | cons a l ih => exact le_trans (ih (min d a)) (min_le_left d a)

theorem foldl_min_of_mem (d : ℚ) (l : List ℚ) : ∀ q ∈ l, l.foldl min d ≤ q := by
  induction l generalizing d with
  | nil => intro q hq; exact absurd hq (List.not_mem_nil q)
  | cons a l ih =>
    intro q hq
    rcases List.mem_cons.1 hq with rfl | hq
    · exact le_trans (foldl_min_init (min d q) l) (min_le_right d q)
    · exact ih (min d a) q hq

theorem foldl_min_cases (d : ℚ) (l : List ℚ) :
    l.foldl min d = d ∨ ∃ q ∈ l, l.foldl min d = q := by
  induction l generalizing d with
  | nil => exact Or.inl rfl
  | cons a l ih =>
    rcases ih (min d a) with h | ⟨q, hq, h⟩
    · rcases min_choice d a with h2 | h2
      · exact Or.inl (by rw [List.foldl_cons, h, h2])
      · exact Or.inr ⟨a, List.mem_cons_self a l, by rw [List.foldl_cons, h, h2]⟩
    · exact Or.inr ⟨q, List.mem_cons_of_mem a hq, by rw [List.foldl_cons, h]⟩

theorem foldl_max_init (d : ℚ) (l : List ℚ) : d ≤ l.foldl max d := by
  induction l generalizing d with
  | nil => exact le_refl d
  | cons a l ih => exact le_trans (le_max_left d a) (ih (max d a))

theorem foldl_max_of_mem (d : ℚ) (l : List ℚ) : ∀ q ∈ l, q ≤ l.foldl max d := by
  induction l generalizing d with
  | nil => intro q hq; exact absurd hq (List.not_mem_nil q)
  | cons a l ih =>
    intro q hq
    rcases List.mem_cons.1 hq with rfl | hq
    · exact le_trans (le_max_right d q) (foldl_max_init (max d q) l)
    · exact ih (max d a) q hq

theorem foldl_max_cases (d : ℚ) (l : List ℚ) :
    l.foldl max d = d ∨ ∃ q ∈ l, l.foldl max d = q := by
  induction l generalizing d with
  | nil => exact Or.inl rfl
  | cons a l ih =>
    rcases ih (max d a) with h | ⟨q, hq, h⟩
    · rcases max_choice d a with h2 | h2
      · exact Or.inl (by rw [List.foldl_cons, h, h2])
      · exact Or.inr ⟨a, List.mem_cons_self a l, by rw [List.foldl_cons, h, h2]⟩
    · exact Or.inr ⟨q, List.mem_cons_of_mem a hq, by rw [List.foldl_cons, h]⟩

/-! ### The cycle minimum / maximum depth -/

theorem minDepthAux_eq_foldl (d : ℚ) (r : List ExchangeScore) :
    minDepthAux d r = (r.map (fun t => t.depthScore)).foldl min d := by
  simp [minDepthAux, List.foldl_map]

theorem maxDepthAux_eq_foldl (d : ℚ) (r : List ExchangeScore) :
    maxDepthAux d r = (r.map (fun t => t.depthScore)).foldl max d := by
  simp [maxDepthAux, List.foldl_map]

theorem cycleMinDepth_le {l : List ExchangeScore} (s : ExchangeScore) (hs : s ∈ l) :
    cycleMinDepth l ≤ s.depthScore := by
  cases l with
  | nil => cases hs
  | cons s0 rest =>
    show minDepthAux s0.depthScore rest ≤ s.depthScore
    rw [minDepthAux_eq_foldl]
    rcases List.mem_cons.1 hs with h | h
    · subst h; exact foldl_min_init _ _
    · exact foldl_min_of_mem _ _ _ (List.mem_map_of_mem _ h)

theorem cycleMaxDepth_ge {l : List ExchangeScore} (s : ExchangeScore) (hs : s ∈ l) :
    s.depthScore ≤ cycleMaxDepth l := by
  cases l with
  | nil => cases hs
  | cons s0 rest =>
    show s.depthScore ≤ maxDepthAux s0.depthScore rest
    rw [maxDepthAux_eq_foldl]
    rcases List.mem_cons.1 hs with h | h
    · subst h; exact foldl_max_init _ _
    · exact foldl_max_of_mem _ _ _ (List.mem_map_of_mem _ h)

theorem cycleMinDepth_mem (l : List ExchangeScore) (h : l ≠ []) :
    ∃ s ∈ l, cycleMinDepth l = s.depthScore := by
  cases l with
  | nil => exact absurd rfl h
  | cons s0 rest =>
    show ∃ s ∈ s0 :: rest, minDepthAux s0.depthScore rest = s.depthScore
    rw [minDepthAux_eq_foldl]
    rcases foldl_min_cases s0.depthScore (rest.map fun t => t.depthScore) with h2 | ⟨q, hq, h2⟩
    · exact ⟨s0, List.mem_cons_self _ _, h2⟩
    · rcases List.mem_map.1 hq with ⟨s, hs, rfl⟩
      exact ⟨s, List.mem_cons_of_mem _ hs, h2⟩

theorem cycleMaxDepth_mem (l : List ExchangeScore) (h : l ≠ []) :
    ∃ s ∈ l, cycleMaxDepth l = s.depthScore := by
  cases l with
  | nil => exact absurd rfl h
  | cons s0 rest =>
    show ∃ s ∈ s0 :: rest, maxDepthAux s0.depthScore rest = s.depthScore
    rw [maxDepthAux_eq_foldl]
    rcases foldl_max_cases s0.depthScore (rest.map fun t => t.depthScore) with h2 | ⟨q, hq, h2⟩
    · exact ⟨s0, List.mem_cons_self _ _, h2⟩
    · rcases List.mem_map.1 hq with ⟨s, hs, rfl⟩
      exact ⟨s, List.mem_cons_of_mem _ hs, h2⟩

theorem cycleMinDepth_perm {l1 l2 : List ExchangeScore} (p : l1.Perm l2) :
    cycleMinDepth l1 = cycleMinDepth l2 := by
  rcases eq_or_ne l1 [] with rfl | h1
  · have : l2 = [] := p.symm.eq_nil
    subst this; rfl
  · have h2 : l2 ≠ [] := fun h => h1 (by subst h; exact p.eq_nil)
    apply le_antisymm
    · rcases cycleMinDepth_mem l2 h2 with ⟨s, hs, he⟩
      rw [he]
      exact cycleMinDepth_le s (p.mem_iff.2 hs)
    · rcases cycleMinDepth_mem l1 h1 with ⟨s, hs, he⟩
      rw [he]
      exact cycleMinDepth_le s (p.mem_iff.1 hs)

theorem cycleMaxDepth_perm {l1 l2 : List ExchangeScore} (p : l1.Perm l2) :
    cycleMaxDepth l1 = cycleMaxDepth l2 := by
  rcases eq_or_ne l1 [] with rfl | h1
  · have : l2 = [] := p.symm.eq_nil
    subst this; rfl
  · have h2 : l2 ≠ [] := fun h => h1 (by subst h; exact p.eq_nil)
    apply le_antisymm
    · rcases cycleMaxDepth_mem l1 h1 with ⟨s, hs, he⟩
      rw [he]
      exact cycleMaxDepth_ge s (p.mem_iff.1 hs)
    · rcases cycleMaxDepth_mem l2 h2 with ⟨s, hs, he⟩
      rw [he]
      exact cycleMaxDepth_ge s (p.mem_iff.2 hs)

theorem cycleMinDepth_le_cycleMaxDepth (l : List ExchangeScore) :
    cycleMinDepth l ≤ cycleMaxDepth l := by
  cases l with
  | nil => exact le_refl 0
  | cons s0 rest =>
    exact le_trans (cycleMinDepth_le s0 (List.mem_cons_self _ _))
      (cycleMaxDepth_ge s0 (List.mem_cons_self _ _))

/-! ### Field bookkeeping for the per-entry transforms -/

theorem normalizeDepth_eq_map (l : List ExchangeScore) :
    normalizeDepth l = l.map (normEntry (cycleMinDepth l) (cycleMaxDepth l)) := by
  cases l <;> rfl

theorem normEntry_exchange (a b : ℚ) (s : ExchangeScore) :
    (normEntry a b s).exchange = s.exchange := by
  unfold normEntry; split <;> rfl

theorem normEntry_pair (a b : ℚ) (s : ExchangeScore) :
    (normEntry a b s).pair = s.pair := by
  unfold normEntry; split <;> rfl

theorem normEntry_fundingRate (a b : ℚ) (s : ExchangeScore) :
    (normEntry a b s).fundingRate = s.fundingRate := by
  unfold normEntry; split <;> rfl

theorem normEntry_spreadPct (a b : ℚ) (s : ExchangeScore) :
    (normEntry a b s).spreadPct = s.spreadPct := by
  unfold normEntry; split <;> rfl

theorem normEntry_depthScore (a b : ℚ) (s : ExchangeScore) :
    (normEntry a b s).depthScore = minmaxNorm a b s.depthScore := by
  unfold normEntry minmaxNorm; split <;> rfl

theorem finalize_exchange (a b : ℚ) (s : ExchangeScore) :
    (finalize a b s).exchange = s.exchange := normEntry_exchange a b s

theorem finalize_pair (a b : ℚ) (s : ExchangeScore) :
    (finalize a b s).pair = s.pair := normEntry_pair a b s

theorem finalize_fundingRate (a b : ℚ) (s : ExchangeScore) :
    (finalize a b s).fundingRate = s.fundingRate := normEntry_fundingRate a b s

theorem finalize_spreadPct (a b : ℚ) (s : ExchangeScore) :
    (finalize a b s).spreadPct = s.spreadPct := normEntry_spreadPct a b s

theorem finalize_depthScore (a b : ℚ) (s : ExchangeScore) :
    (finalize a b s).depthScore = minmaxNorm a b s.depthScore := normEntry_depthScore a b s

theorem finalize_compositeScore (a b : ℚ) (s : ExchangeScore) :
    (finalize a b s).compositeScore =
      (1 / (1 + s.fundingRate * 100)) * 0.4 +
      (1 / (1 + s.spreadPct)) * 0.4 +
      minmaxNorm a b s.depthScore * 0.2 := by
  show (setComposite (normEntry a b s)).compositeScore = _
  rw [setComposite, normEntry_fundingRate, normEntry_spreadPct, normEntry_depthScore]

theorem minmaxNorm_bounds {minD maxD d : ℚ} (hle : minD ≤ maxD)
    (h1 : minD ≤ d) (h2 : d ≤ maxD) :
    0 ≤ minmaxNorm minD maxD d ∧ minmaxNorm minD maxD d ≤ 1 := by
  unfold minmaxNorm
  by_cases h : maxD = minD
  · simp [h]
  · have hlt : minD < maxD := lt_of_le_of_ne hle (Ne.symm h)
    rw [if_neg h]
    constructor
    · exact div_nonneg (by linarith) (by linarith)
    · rw [div_le_one (by linarith)]
      linarith

/-! ### `fetchAndScore` and `survivors` -/

/-- The provisional record `fetchAndScore` builds once all three calls
succeeded. -/
def mkScore (ex : Exchange) (pair : String) (funding : FundingRate) (spread : Spread)
    (depth : OrderBookDepth) : ExchangeScore :=
  { exchange := ex.name
    pair := pair
    fundingRate := funding.rate
    spreadPct := if spread.bid > 0 then spread.spread / spread.bid * 100 else 0
    rawBidDepth := depth.bidDepth
    rawAskDepth := depth.askDepth
    depthScore := depth.bidDepth + depth.askDepth
    compositeScore := 0 }

theorem fetchAndScore_eq_ok {ex : Exchange} {pair : String} {s : ExchangeScore} :
    fetchAndScore ex pair = .ok s ↔
      ∃ funding spread depth,
        ex.getFundingRate pair = .ok funding ∧
        ex.getSpread pair = .ok spread ∧
        ex.getOrderBookDepth pair = .ok depth ∧
        s = mkScore ex pair funding spread depth := by
  unfold fetchAndScore
  cases hf : ex.getFundingRate pair with
  | error e => simp [hf]
  | ok funding =>
    cases hs : ex.getSpread pair with
    | error e => simp [hf, hs]
    | ok spread =>
      cases hd : ex.getOrderBookDepth pair with
      | error e => simp [hf, hs, hd]
      | ok depth => simp [hf, hs, hd, mkScore, eq_comm]

theorem toOption_eq_some {α : Type} {r : Except String α} {v : α} :
    r.toOption = some v ↔ r = .ok v := by
  cases r <;> simp [Except.toOption]

theorem mem_survivors {exs : List Exchange} {pair : String} {s : ExchangeScore} :
    s ∈ survivors exs pair ↔ ∃ ex ∈ exs, fetchAndScore ex pair = .ok s := by
  simp [survivors, List.mem_filterMap, toOption_eq_some]

/-- Every call of every source succeeded for this source. -/
def allCallsOk (ex : Exchange) (pair : String) : Prop :=
  (∃ v, ex.getFundingRate pair = .ok v) ∧
  (∃ v, ex.getSpread pair = .ok v) ∧
  (∃ v, ex.getOrderBookDepth pair = .ok v)

theorem fetchAndScore_ok_iff_allCallsOk {ex : Exchange} {pair : String} :
    (∃ s, fetchAndScore ex pair = .ok s) ↔ allCallsOk ex pair := by
  constructor
  · rintro ⟨s, h⟩
    rcases fetchAndScore_eq_ok.1 h with ⟨funding, spread, depth, hf, hs, hd, _⟩
    exact ⟨⟨funding, hf⟩, ⟨spread, hs⟩, ⟨depth, hd⟩⟩
  · rintro ⟨⟨funding, hf⟩, ⟨spread, hs⟩, ⟨depth, hd⟩⟩
    exact ⟨mkScore ex pair funding spread depth,
      fetchAndScore_eq_ok.2 ⟨funding, spread, depth, hf, hs, hd, rfl⟩⟩

theorem survivors_eq_nil_iff {exs : List Exchange} {pair : String} :
    survivors exs pair = [] ↔ ∀ ex ∈ exs, ¬ allCallsOk ex pair := by
  rw [survivors, List.filterMap_eq_nil_iff]
  constructor
  · intro h ex hex hok
    rcases fetchAndScore_ok_iff_allCallsOk.2 hok with ⟨s, hfs⟩
    have := h ex hex
    rw [hfs] at this
    simp [Except.toOption] at this
  · intro h ex hex
    cases hfs : fetchAndScore ex pair with
    | error e => rfl
    | ok s =>
      exact absurd (fetchAndScore_ok_iff_allCallsOk.1 ⟨s, hfs⟩) (h ex hex)

/-! ### `ScoreAll` decomposition -/

theorem scoreAll_eq_error_iff {exs : List Exchange} {pair : String} :
    (∃ e, ScoreAll exs pair = .error e) ↔ survivors exs pair = [] := by
  unfold ScoreAll
  by_cases h : (survivors exs pair).isEmpty <;>
    simp_all [List.isEmpty_iff]

theorem scoreAll_eq_ok_iff {exs : List Exchange} {pair : String} {l : List ExchangeScore} :
    ScoreAll exs pair = .ok l ↔
      survivors exs pair ≠ [] ∧
      l = rankScores ((survivors exs pair).map
            (finalize (cycleMinDepth (survivors exs pair))
                      (cycleMaxDepth (survivors exs pair)))) := by
  unfold ScoreAll
  by_cases h : (survivors exs pair).isEmpty
  · simp_all [List.isEmpty_iff]
  · rw [if_neg h]
    have hne : survivors exs pair ≠ [] := by
      intro hnil
      rw [hnil] at h
      exact h rfl
    rw [normalizeDepth_eq_map, List.map_map]
    constructor
    · intro hok
      refine ⟨hne, ?_⟩
      cases hok
      rfl
    · rintro ⟨-, rfl⟩
      rfl

/-! ### Correctness of the swap sort -/

theorem selectMax_perm (x : ExchangeScore) (ys : List ExchangeScore) :
    ((selectMax x ys).1 :: (selectMax x ys).2).Perm (x :: ys) := by
  induction ys generalizing x with
  | nil => exact List.Perm.refl _
  | cons y ys ih =>
    by_cases h : y.compositeScore > x.compositeScore
    · simp only [selectMax, if_pos h]
      exact (List.Perm.swap x _ _).trans ((ih y).cons x)
    · simp only [selectMax, if_neg h]
      exact ((List.Perm.swap y _ _).trans ((ih x).cons y)).trans (List.Perm.swap x y ys)

theorem selectMax_fst_comp (x : ExchangeScore) (ys : List ExchangeScore) :
    (selectMax x ys).1.compositeScore =
      (ys.map (fun s => s.compositeScore)).foldl max x.compositeScore := by
  induction ys generalizing x with
  | nil => rfl
  | cons y ys ih =>
    by_cases h : y.compositeScore > x.compositeScore
    · simp only [selectMax, if_pos h, List.map_cons, List.foldl_cons]
      rw [ih y, max_eq_right (le_of_lt h)]
    · simp only [selectMax, if_neg h, List.map_cons, List.foldl_cons]
      rw [ih x, max_eq_left (le_of_not_lt h)]

theorem selectMax_fst_ge (x : ExchangeScore) (ys : List ExchangeScore) :
    ∀ z ∈ x :: ys, z.compositeScore ≤ (selectMax x ys).1.compositeScore := by
  intro z hz
  rw [selectMax_fst_comp]
  rcases List.mem_cons.1 hz with h | h
  · subst h; exact foldl_max_init _ _
  · exact foldl_max_of_mem _ _ _ (List.mem_map_of_mem _ h)

theorem rankScores_perm_aux :
    ∀ (n : Nat) (l : List ExchangeScore), l.length ≤ n → (rankScores l).Perm l := by
  intro n
  induction n with
  | zero =>
    intro l hl
    have : l = [] := List.length_eq_zero.1 (Nat.le_zero.1 hl)
    subst this
    simp [rankScores_nil]
  | succ n ih =>
    intro l hl
    cases l with
    | nil => simp [rankScores_nil]
    | cons x xs =>
      have hlen : (selectMax x xs).2.length ≤ n := by
        rw [selectMax_snd_length]
        simpa [List.length_cons, Nat.succ_le_succ_iff] using hl
      rw [rankScores_cons]
      exact ((ih _ hlen).cons _).trans (selectMax_perm x xs)

theorem rankScores_perm (l : List ExchangeScore) : (rankScores l).Perm l :=
  rankScores_perm_aux l.length l (le_refl _)

theorem rankScores_sorted_aux :
    ∀ (n : Nat) (l : List ExchangeScore), l.length ≤ n →
      (rankScores l).Pairwise (fun a b => b.compositeScore ≤ a.compositeScore) := by
  intro n
  induction n with
  | zero =>
    intro l hl
    have : l = [] := List.length_eq_zero.1 (Nat.le_zero.1 hl)
    subst this
    simp [rankScores_nil]
  | succ n ih =>
    intro l hl
    cases l with
    | nil => simp [rankScores_nil]
    | cons x xs =>
      have hlen : (selectMax x xs).2.length ≤ n := by
        rw [selectMax_snd_length]
        simpa [List.length_cons, Nat.succ_le_succ_iff] using hl
      rw [rankScores_cons]
      refine List.pairwise_cons.2 ⟨?_, ih _ hlen⟩
      intro b hb
      have hb2 : b ∈ (selectMax x xs).2 := (rankScores_perm _).mem_iff.1 hb
      have hb3 : b ∈ x :: xs :=
        (selectMax_perm x xs).subset (List.mem_cons_of_mem _ hb2)
      exact selectMax_fst_ge x xs b hb3

theorem rankScores_sorted (l : List ExchangeScore) :
    (rankScores l).Pairwise (fun a b => b.compositeScore ≤ a.compositeScore) :=
  rankScores_sorted_aux l.length l (le_refl _)

/-- Decomposing a successful call: every output entry is a finalized
survivor. -/
theorem mem_result_iff {exs : List Exchange} {pair : String} {l : List ExchangeScore}
    (h : ScoreAll exs pair = .ok l) {e : ExchangeScore} :
    e ∈ l ↔ ∃ s ∈ survivors exs pair,
      e = finalize (cycleMinDepth (survivors exs pair))
            (cycleMaxDepth (survivors exs pair)) s := by
  rcases scoreAll_eq_ok_iff.1 h with ⟨-, rfl⟩
  rw [(rankScores_perm _).mem_iff, List.mem_map]
  constructor
  · rintro ⟨s, hs, rfl⟩
    exact ⟨s, hs, rfl⟩
  · rintro ⟨s, hs, rfl⟩
    exact ⟨s, hs, rfl⟩

theorem survivors_depth_raw {exs : List Exchange} {pair : String} {t : ExchangeScore}
    (ht : t ∈ survivors exs pair) :
    t.depthScore = t.rawBidDepth + t.rawAskDepth := by
  rcases mem_survivors.1 ht with ⟨ex, hex, hok⟩
  rcases fetchAndScore_eq_ok.1 hok with ⟨f, sp, d, -, -, -, rfl⟩
  rfl

theorem survivors_pair_eq {exs : List Exchange} {pair : String} {t : ExchangeScore}
    (ht : t ∈ survivors exs pair) : t.pair = pair := by
  rcases mem_survivors.1 ht with ⟨ex, hex, hok⟩
  rcases fetchAndScore_eq_ok.1 hok with ⟨f, sp, d, -, -, -, rfl⟩
  rfl

theorem survivors_exchange_name {pair : String} {ex : Exchange}
    {t : ExchangeScore} (hok : fetchAndScore ex pair = .ok t) :
    t.exchange = ex.name := by
  rcases fetchAndScore_eq_ok.1 hok with ⟨f, sp, d, -, -, -, rfl⟩
  rfl

/-! ## The claims -/

/-- C3: for every successful `ScoreAll` call, the returned list is sorted by
non-increasing composite score: every adjacent pair of entries has the later
entry's composite score ≤ the earlier entry's. -/
theorem scoreAll_sorted_desc (exs : List Exchange) (pair : String)
    (l : List ExchangeScore) (h : ScoreAll exs pair = .ok l) :
    l.Chain' (fun a b => b.compositeScore ≤ a.compositeScore) := by
  rcases scoreAll_eq_ok_iff.1 h with ⟨-, rfl⟩
  exact List.Pairwise.chain' (rankScores_sorted _)

theorem scoreAll_sorted_desc_witness :
    List.Chain' (fun a b => b.compositeScore ≤ a.compositeScore) [resB, resA] :=
  scoreAll_sorted_desc [exA, exB] "X" [resB, resA] scoreAll_AB_eval

/-- C4: in every successful `ScoreAll` call every entry's normalized depth
lies in `[0,1]`, and when all surviving sources report equal raw depth
(bid depth + ask depth), every entry's normalized depth is exactly `1`. -/
theorem scoreAll_depth_normalized (exs : List Exchange) (pair : String)
    (l : List ExchangeScore) (h : ScoreAll exs pair = .ok l) :
    (∀ e ∈ l, 0 ≤ e.depthScore ∧ e.depthScore ≤ 1) ∧
    ((∀ s1 ∈ survivors exs pair, ∀ s2 ∈ survivors exs pair,
        s1.rawBidDepth + s1.rawAskDepth = s2.rawBidDepth + s2.rawAskDepth) →
      ∀ e ∈ l, e.depthScore = 1) := by
  constructor
  · intro e he
    rcases (mem_result_iff h).1 he with ⟨s, hs, rfl⟩
    rw [finalize_depthScore]
    exact minmaxNorm_bounds (cycleMinDepth_le_cycleMaxDepth _)
      (cycleMinDepth_le s hs) (cycleMaxDepth_ge s hs)
  · intro hall e he
    rcases (mem_result_iff h).1 he with ⟨s, hs, rfl⟩
    rw [finalize_depthScore]
    have hdepth : ∀ t ∈ survivors exs pair, t.depthScore = s.depthScore := by
      intro t ht
      rw [survivors_depth_raw ht, survivors_depth_raw hs, hall t ht s hs]
    have hne : survivors exs pair ≠ [] := by
      intro hnil
      rw [hnil] at hs
      cases hs
    rcases cycleMinDepth_mem _ hne with ⟨t1, ht1, he1⟩
    rcases cycleMaxDepth_mem _ hne with ⟨t2, ht2, he2⟩
    have heq : cycleMaxDepth (survivors exs pair) = cycleMinDepth (survivors exs pair) := by
      rw [he1, he2, hdepth t1 ht1, hdepth t2 ht2]
    unfold minmaxNorm
    rw [if_pos heq]

theorem scoreAll_depth_normalized_witness :
    (∀ e ∈ [resB, resA], 0 ≤ e.depthScore ∧ e.depthScore ≤ 1) ∧
    ((∀ s1 ∈ survivors [exA, exB] "X", ∀ s2 ∈ survivors [exA, exB] "X",
        s1.rawBidDepth + s1.rawAskDepth = s2.rawBidDepth + s2.rawAskDepth) →
      ∀ e ∈ [resB, resA], e.depthScore = 1) :=
  scoreAll_depth_normalized [exA, exB] "X" [resB, resA] scoreAll_AB_eval

/-- C2: `ScoreAll` fails (with the aggregate "no exchange data" error) if
and only if every configured source fails at least one of its three calls;
and when at least one source succeeds on all three calls, it returns a
non-empty list. -/
theorem scoreAll_aggregate_error_iff (exs : List Exchange) (pair : String) :
    ((∃ e, ScoreAll exs pair = .error e) ↔ ∀ ex ∈ exs, ¬ allCallsOk ex pair) ∧
    (∀ l, ScoreAll exs pair = .ok l → l ≠ []) ∧
    ((∃ ex ∈ exs, allCallsOk ex pair) → ∃ l, ScoreAll exs pair = .ok l ∧ l ≠ []) := by
  have hok_ne : ∀ l, ScoreAll exs pair = .ok l → l ≠ [] := by
    intro l h hnil
    rcases scoreAll_eq_ok_iff.1 h with ⟨hne, hl⟩
    subst hnil
    have hperm := rankScores_perm
      ((survivors exs pair).map
        (finalize (cycleMinDepth (survivors exs pair)) (cycleMaxDepth (survivors exs pair))))
    rw [← hl] at hperm
    have : (survivors exs pair).map
        (finalize (cycleMinDepth (survivors exs pair)) (cycleMaxDepth (survivors exs pair)))
        = [] := hperm.symm.eq_nil
    exact hne (List.map_eq_nil_iff.1 this)
  refine ⟨?_, hok_ne, ?_⟩
  · rw [scoreAll_eq_error_iff]
    exact survivors_eq_nil_iff
  · rintro ⟨ex, hex, hok⟩
    rcases fetchAndScore_ok_iff_allCallsOk.2 hok with ⟨s, hfs⟩
    have hne : survivors exs pair ≠ [] := by
      intro hnil
      have : s ∈ survivors exs pair := mem_survivors.2 ⟨ex, hex, hfs⟩
      rw [hnil] at this
      cases this
    refine ⟨_, scoreAll_eq_ok_iff.2 ⟨hne, rfl⟩, ?_⟩
    exact hok_ne _ (scoreAll_eq_ok_iff.2 ⟨hne, rfl⟩)

theorem scoreAll_aggregate_error_iff_witness :
    ∃ e, ScoreAll [downExchange "D"] "X" = .error e :=
  (scoreAll_aggregate_error_iff [downExchange "D"] "X").1.mpr (by
    intro ex hex
    rcases List.mem_singleton.1 hex with rfl
    rintro ⟨⟨v, hv⟩, -, -⟩
    simp [downExchange] at hv)

/-- C1: every surviving source's entry in a successful `ScoreAll` call
carries exactly the composite
`0.4 × 1/(1 + fundingRate×100) + 0.4 × 1/(1 + spreadPct) + 0.2 × normalizedDepth`,
where `spreadPct` is `(ask − bid)/bid × 100` for positive bid and `0`
otherwise, and `normalizedDepth` is the min–max-normalized sum of the
source's bid and ask depth. -/
theorem scoreAll_composite_formula (exs : List Exchange) (pair : String)
    (l : List ExchangeScore) (ex : Exchange)
    (funding : FundingRate) (spread : Spread) (depth : OrderBookDepth)
    (h : ScoreAll exs pair = .ok l)
    (hex : ex ∈ exs)
    (hf : ex.getFundingRate pair = .ok funding)
    (hs : ex.getSpread pair = .ok spread)
    (hd : ex.getOrderBookDepth pair = .ok depth)
    (hadapter : spread.spread = spread.ask - spread.bid) :
    ∃ e ∈ l,
      e.exchange = ex.name ∧
      e.fundingRate = funding.rate ∧
      e.spreadPct =
        (if spread.bid > 0 then (spread.ask - spread.bid) / spread.bid * 100 else 0) ∧
      e.depthScore =
        minmaxNorm (cycleMinDepth (survivors exs pair)) (cycleMaxDepth (survivors exs pair))
          (depth.bidDepth + depth.askDepth) ∧
      e.compositeScore =
        0.4 * (1 / (1 + funding.rate * 100)) + 0.4 * (1 / (1 + e.spreadPct)) +
          0.2 * e.depthScore := by
  have hmk : fetchAndScore ex pair = .ok (mkScore ex pair funding spread depth) :=
    fetchAndScore_eq_ok.2 ⟨funding, spread, depth, hf, hs, hd, rfl⟩
  have hsurv : mkScore ex pair funding spread depth ∈ survivors exs pair :=
    mem_survivors.2 ⟨ex, hex, hmk⟩
  refine ⟨finalize (cycleMinDepth (survivors exs pair)) (cycleMaxDepth (survivors exs pair))
      (mkScore ex pair funding spread depth),
    (mem_result_iff h).2 ⟨_, hsurv, rfl⟩, ?_, ?_, ?_, ?_, ?_⟩
  · rw [finalize_exchange]; rfl
  · rw [finalize_fundingRate]; rfl
  · rw [finalize_spreadPct]
    show (if spread.bid > 0 then spread.spread / spread.bid * 100 else 0) = _
    rw [hadapter]
  · rw [finalize_depthScore]; rfl
  · rw [finalize_compositeScore, finalize_spreadPct, finalize_depthScore]
    simp only [mkScore]
    ring

theorem scoreAll_composite_formula_witness :
    ∃ e ∈ [resB, resA],
      e.exchange = "A" ∧
      e.fundingRate = (0.0001 : ℚ) ∧
      e.spreadPct =
        (if (100 : ℚ) > 0 then ((100.05 : ℚ) - 100) / 100 * 100 else 0) ∧
      e.depthScore =
        minmaxNorm (cycleMinDepth (survivors [exA, exB] "X"))
          (cycleMaxDepth (survivors [exA, exB] "X")) (50 + 50) ∧
      e.compositeScore =
        0.4 * (1 / (1 + (0.0001 : ℚ) * 100)) + 0.4 * (1 / (1 + e.spreadPct)) +
          0.2 * e.depthScore :=
  scoreAll_composite_formula [exA, exB] "X" [resB, resA] exA
    ⟨0.0001⟩ ⟨100, 100.05, 100.05 - 100⟩ ⟨50, 50⟩
    scoreAll_AB_eval (List.mem_cons_self _ _) rfl rfl rfl rfl

theorem survivors_names_sublist (exs : List Exchange) (pair : String) :
    ((survivors exs pair).map (fun s => s.exchange)).Sublist (exs.map Exchange.name) := by
  induction exs with
  | nil => simp [survivors]
  | cons ex exs ih =>
    show ((List.filterMap _ (ex :: exs)).map _).Sublist _
    rw [List.filterMap_cons]
    cases hfs : (fetchAndScore ex pair).toOption with
    | none =>
      exact List.Sublist.cons _ ih
    | some s =>
      have hname : s.exchange = ex.name :=
        survivors_exchange_name (toOption_eq_some.1 hfs)
      show ((s :: List.filterMap _ exs).map _).Sublist (ex.name :: exs.map Exchange.name)
      rw [List.map_cons, hname]
      exact List.Sublist.cons₂ _ ih

/-- C5: a source that fails any of its three calls contributes no entry to
a successful cycle's output (its identifier is absent, source names being
unique), and every source whose three calls all succeed still gets an
entry. -/
theorem scoreAll_excludes_failed_source (exs : List Exchange) (pair : String)
    (l : List ExchangeScore) (ex : Exchange)
    (h : ScoreAll exs pair = .ok l)
    (hnames : (exs.map Exchange.name).Nodup)
    (hex : ex ∈ exs)
    (hfail : ¬ allCallsOk ex pair) :
    (∀ e ∈ l, e.exchange ≠ ex.name) ∧
    (∀ ex2 ∈ exs, allCallsOk ex2 pair → ∃ e ∈ l, e.exchange = ex2.name) := by
  constructor
  · intro e he heq
    rcases (mem_result_iff h).1 he with ⟨s, hsv, rfl⟩
    rcases mem_survivors.1 hsv with ⟨ex2, hex2, hok⟩
    rw [finalize_exchange, survivors_exchange_name hok] at heq
    have : ex2 = ex := List.inj_on_of_nodup_map hnames hex2 hex heq
    subst this
    exact hfail (fetchAndScore_ok_iff_allCallsOk.1 ⟨s, hok⟩)
  · intro ex2 hex2 hok2
    rcases fetchAndScore_ok_iff_allCallsOk.2 hok2 with ⟨s, hfs⟩
    have hsv : s ∈ survivors exs pair := mem_survivors.2 ⟨ex2, hex2, hfs⟩
    refine ⟨finalize (cycleMinDepth (survivors exs pair))
        (cycleMaxDepth (survivors exs pair)) s,
      (mem_result_iff h).2 ⟨s, hsv, rfl⟩, ?_⟩
    rw [finalize_exchange]
    exact survivors_exchange_name hfs

theorem scoreAll_excludes_failed_source_witness :
    (∀ e ∈ [resA1], e.exchange ≠ "D") ∧
    (∀ ex2 ∈ [exA, downExchange "D"], allCallsOk ex2 "X" →
      ∃ e ∈ [resA1], e.exchange = ex2.name) :=
  scoreAll_excludes_failed_source [exA, downExchange "D"] "X" [resA1] (downExchange "D")
    scoreAll_AD_eval (by simp [exA, downExchange, constExchange])
    (by simp)
    (by rintro ⟨⟨v, hv⟩, -, -⟩; simp [downExchange] at hv)

/-- C8: within one successful `ScoreAll` result the (exchange, pair)
pairing is unique (source names being unique) — at most one entry per
configured source — and every entry carries the pair that was queried. -/
theorem scoreAll_unique_pairing (exs : List Exchange) (pair : String)
    (l : List ExchangeScore)
    (h : ScoreAll exs pair = .ok l)
    (hnames : (exs.map Exchange.name).Nodup) :
    (∀ e ∈ l, e.pair = pair) ∧
    (l.map (fun e => (e.exchange, e.pair))).Nodup := by
  have hpair : ∀ e ∈ l, e.pair = pair := by
    intro e he
    rcases (mem_result_iff h).1 he with ⟨s, hsv, rfl⟩
    rw [finalize_pair]
    exact survivors_pair_eq hsv
  refine ⟨hpair, ?_⟩
  rcases scoreAll_eq_ok_iff.1 h with ⟨-, hl⟩
  have hperm : l.Perm ((survivors exs pair).map
      (finalize (cycleMinDepth (survivors exs pair))
        (cycleMaxDepth (survivors exs pair)))) := by
    rw [hl]
    exact rankScores_perm _
  have hnames_perm : (l.map (fun e => e.exchange)).Perm
      ((survivors exs pair).map (fun s => s.exchange)) := by
    have hmap := hperm.map (fun e => e.exchange)
    rw [List.map_map] at hmap
    have hcomp : ((fun e : ExchangeScore => e.exchange) ∘
        (finalize (cycleMinDepth (survivors exs pair))
          (cycleMaxDepth (survivors exs pair)))) = fun s => s.exchange :=
      funext fun s => finalize_exchange _ _ s
    rw [hcomp] at hmap
    exact hmap
  have hnodup_surv : ((survivors exs pair).map (fun s => s.exchange)).Nodup :=
    (survivors_names_sublist exs pair).nodup hnames
  have hnodup_l : (l.map (fun e => e.exchange)).Nodup :=
    hnames_perm.nodup_iff.2 hnodup_surv
  have hsplit : l.map (fun e => (e.exchange, e.pair))
      = (l.map (fun e => e.exchange)).map (fun nm => (nm, pair)) := by
    rw [List.map_map]
    exact List.map_congr_left fun e he => by
      show (e.exchange, e.pair) = (e.exchange, pair)
      rw [hpair e he]
  rw [hsplit]
  exact hnodup_l.map (fun a b hab => congrArg Prod.fst hab)

theorem scoreAll_unique_pairing_witness :
    (∀ e ∈ [resB, resA], e.pair = "X") ∧
    (([resB, resA].map (fun e => (e.exchange, e.pair))).Nodup) :=
  scoreAll_unique_pairing [exA, exB] "X" [resB, resA] scoreAll_AB_eval
    (by simp [exA, exB, constExchange])

/-! ### Scheduler cache lemmas -/

theorem refresh_cons (exs : List Exchange) (p : String) (ps : List String) (c : Cache) :
    refresh exs (p :: ps) c = refresh exs ps (publish exs c p) := rfl

theorem publish_self {exs : List Exchange} {p : String} {l : List ExchangeScore}
    (c : Cache) (hok : ScoreAll exs p = .ok l) :
    publish exs c p p = some l := by
  simp [publish, hok]

theorem publish_preserve_ok {exs : List Exchange} {P p : String} {l : List ExchangeScore}
    {c : Cache} (hok : ScoreAll exs P = .ok l) (hc : c P = some l) :
    publish exs c p P = some l := by
  unfold publish
  cases hsp : ScoreAll exs p with
  | error e => exact hc
  | ok scores =>
    by_cases hPp : P = p
    · subst hPp
      rw [hok] at hsp
      cases hsp
      simp
    · simp [hPp, hc]

theorem publish_at_err {exs : List Exchange} {P : String} {c : Cache} {p : String}
    (herr : ∃ e, ScoreAll exs P = .error e) :
    publish exs c p P = c P := by
  by_cases hPp : P = p
  · subst hPp
    rcases herr with ⟨e, he⟩
    simp [publish, he]
  · unfold publish
    cases ScoreAll exs p with
    | error e => rfl
    | ok scores => simp [hPp]

theorem refresh_err {exs : List Exchange} {P : String}
    (herr : ∃ e, ScoreAll exs P = .error e) :
    ∀ (ps : List String) (c : Cache), refresh exs ps c P = c P := by
  intro ps
  induction ps with
  | nil => intro c; rfl
  | cons p ps ih =>
    intro c
    rw [refresh_cons, ih, publish_at_err herr]

theorem refresh_preserve {exs : List Exchange} {P : String} {l : List ExchangeScore}
    (hok : ScoreAll exs P = .ok l) :
    ∀ (ps : List String) (c : Cache), c P = some l → refresh exs ps c P = some l := by
  intro ps
  induction ps with
  | nil => intro c hc; exact hc
  | cons p ps ih =>
    intro c hc
    rw [refresh_cons]
    exact ih _ (publish_preserve_ok hok hc)

theorem refresh_writes {exs : List Exchange} {P : String} {l : List ExchangeScore}
    (hok : ScoreAll exs P = .ok l) :
    ∀ (ps : List String) (c : Cache), P ∈ ps → refresh exs ps c P = some l := by
  intro ps
  induction ps with
  | nil => intro c hmem; cases hmem
  | cons p ps ih =>
    intro c hmem
    rw [refresh_cons]
    by_cases hPs : P ∈ ps
    · exact ih _ hPs
    · have hPp : P = p := by
        rcases List.mem_cons.1 hmem with h | h
        · exact h
        · exact absurd h hPs
      subst hPp
      exact refresh_preserve hok ps _ (publish_self c hok)

/-- C6: if cycle N succeeds for pair P and the next cycle fails for P with
the aggregate error, `GetScores P` after cycle N+1 still returns cycle N's
list, unchanged, with `found = true`. -/
theorem cache_stale_on_failed_cycle (exsN exsN1 : List Exchange) (pairs : List String)
    (c0 : Cache) (P : String) (l : List ExchangeScore) (err : String)
    (hP : P ∈ pairs)
    (hN : ScoreAll exsN P = .ok l)
    (hN1 : ScoreAll exsN1 P = .error err) :
    GetScores (refresh exsN1 pairs (refresh exsN pairs c0)) P = (l, true) := by
  have h1 : refresh exsN pairs c0 P = some l := refresh_writes hN pairs c0 hP
  have h2 : refresh exsN1 pairs (refresh exsN pairs c0) P = some l := by
    rw [refresh_err ⟨err, hN1⟩ pairs _, h1]
  simp [GetScores, h2]

theorem cache_stale_on_failed_cycle_witness :
    GetScores (refresh [downExchange "D"] ["X"]
      (refresh [exA] ["X"] (fun _ => none))) "X" = ([resA1], true) :=
  cache_stale_on_failed_cycle [exA] [downExchange "D"] ["X"] (fun _ => none) "X"
    [resA1] "no exchange data available for pair X"
    (List.mem_singleton.2 rfl) scoreAll_A_eval scoreAll_D_eval

/-- C9: given fixed deterministic source responses, the result of
`ScoreAll` does not depend on the fan-in arrival order: for any permutation
of the configured sources the result lists are permutations of each other
and every surviving exchange receives the identical composite score. -/
theorem scoreAll_order_independent (exs exs2 : List Exchange) (pair : String)
    (l l2 : List ExchangeScore)
    (hperm : exs2.Perm exs)
    (h : ScoreAll exs pair = .ok l)
    (h2 : ScoreAll exs2 pair = .ok l2) :
    l2.Perm l ∧
    ∀ e ∈ l, ∃ e2 ∈ l2, e2.exchange = e.exchange ∧
      e2.compositeScore = e.compositeScore := by
  have hsv : (survivors exs2 pair).Perm (survivors exs pair) := hperm.filterMap _
  have hmin : cycleMinDepth (survivors exs2 pair) = cycleMinDepth (survivors exs pair) :=
    cycleMinDepth_perm hsv
  have hmax : cycleMaxDepth (survivors exs2 pair) = cycleMaxDepth (survivors exs pair) :=
    cycleMaxDepth_perm hsv
  rcases scoreAll_eq_ok_iff.1 h with ⟨-, hl⟩
  rcases scoreAll_eq_ok_iff.1 h2 with ⟨-, hl2⟩
  subst hl
  subst hl2
  rw [hmin, hmax]
  have hp : (rankScores ((survivors exs2 pair).map
      (finalize (cycleMinDepth (survivors exs pair))
        (cycleMaxDepth (survivors exs pair))))).Perm
      (rankScores ((survivors exs pair).map
        (finalize (cycleMinDepth (survivors exs pair))
          (cycleMaxDepth (survivors exs pair))))) :=
    ((rankScores_perm _).trans (hsv.map _)).trans (rankScores_perm _).symm
  refine ⟨hp, ?_⟩
  intro e he
  exact ⟨e, hp.mem_iff.2 he, rfl, rfl⟩

theorem scoreAll_order_independent_witness :
    List.Perm [resB, resA] [resB, resA] ∧
    ∀ e ∈ [resB, resA], ∃ e2 ∈ [resB, resA], e2.exchange = e.exchange ∧
      e2.compositeScore = e.compositeScore :=
  scoreAll_order_independent [exA, exB] [exB, exA] "X" [resB, resA] [resB, resA]
    (List.Perm.swap exA exB []) scoreAll_AB_eval scoreAll_BA_eval

/-- C10: the composite's two inverse transforms have no zero-divisor guard:
`fetchAndScore` excludes no source on grounds of its values — a funding
rate of −0.01 or a crossed book (ask < bid with positive bid, giving a
negative spread percentage) still produces a record — and the divisors
`1 + fundingRate×100` and `1 + spreadPct` are nonzero exactly when the
funding rate differs from −0.01 and the spread percentage from −1. -/
theorem composite_divisors_unguarded (ex : Exchange) (pair : String)
    (funding : FundingRate) (spread : Spread) (depth : OrderBookDepth)
    (hf : ex.getFundingRate pair = .ok funding)
    (hs : ex.getSpread pair = .ok spread)
    (hd : ex.getOrderBookDepth pair = .ok depth) :
    ∃ r, fetchAndScore ex pair = .ok r ∧
      r.fundingRate = funding.rate ∧
      (funding.rate ≠ -(1 / 100) → 1 + r.fundingRate * 100 ≠ 0) ∧
      (r.spreadPct ≠ -1 → 1 + r.spreadPct ≠ 0) ∧
      (spread.bid > 0 → spread.spread < 0 → r.spreadPct < 0) := by
  refine ⟨mkScore ex pair funding spread depth,
    fetchAndScore_eq_ok.2 ⟨funding, spread, depth, hf, hs, hd, rfl⟩, rfl, ?_, ?_, ?_⟩
  · intro hne hz
    apply hne
    have hfr : (mkScore ex pair funding spread depth).fundingRate = funding.rate := rfl
    rw [hfr] at hz
    linarith
  · intro hne hz
    apply hne
    linarith
  · intro hbid hneg
    show (if spread.bid > 0 then spread.spread / spread.bid * 100 else 0) < 0
    rw [if_pos hbid]
    have hq : spread.spread / spread.bid < 0 := div_neg_of_neg_of_pos hneg hbid
    linarith

theorem composite_divisors_unguarded_witness :
    ∃ r, fetchAndScore (constExchange "C" (-(1 / 100)) 100 99 50 50) "X" = .ok r ∧
      r.fundingRate = (⟨-(1 / 100)⟩ : FundingRate).rate ∧
      ((⟨-(1 / 100)⟩ : FundingRate).rate ≠ -(1 / 100) → 1 + r.fundingRate * 100 ≠ 0) ∧
      (r.spreadPct ≠ -1 → 1 + r.spreadPct ≠ 0) ∧
      ((100 : ℚ) > 0 → (99 : ℚ) - 100 < 0 → r.spreadPct < 0) :=
  composite_divisors_unguarded (constExchange "C" (-(1 / 100)) 100 99 50 50) "X"
    ⟨-(1 / 100)⟩ ⟨100, 99, 99 - 100⟩ ⟨50, 50⟩ rfl rfl rfl

/-- C7 counterexample: on exactly the spec's worked two-source scenario —
A (funding 0.0001, spread 0.05 %, depth 100), B (funding 0.0005, spread
0.10 %, depth 300) — the code ranks B first, not A, and B's composite is
1091/1155 ≈ 0.945, far from the claimed ≈ 0.745 and strictly above A's. -/
theorem scenario_counterexample :
    ScoreAll [exA, exB] "X" = .ok [resB, resA] ∧
    resB.exchange = "B" ∧ resA.exchange = "A" ∧
    resB.compositeScore = 1091 / 1155 ∧
    (0.9 : ℚ) < resB.compositeScore ∧
    resA.compositeScore < resB.compositeScore := by
  refine ⟨scoreAll_AB_eval, rfl, rfl, rfl, ?_, ?_⟩
  · show (0.9 : ℚ) < 1091 / 1155
    norm_num
  · show (1648 / 2121 : ℚ) < 1091 / 1155
    norm_num

/-- C7 (amended): on the spec's worked two-source scenario a successful
`ScoreAll` yields normalized depth 0 for A and 1 for B, composite
1648/2121 ≈ 0.777 for A and 1091/1155 ≈ 0.945 for B, and ranks B before
A. -/
theorem scenario_amended :
    ScoreAll [exA, exB] "X" = .ok [resB, resA] ∧
    resA.depthScore = 0 ∧ resB.depthScore = 1 ∧
    resA.compositeScore = 1648 / 2121 ∧ resB.compositeScore = 1091 / 1155 ∧
    |resA.compositeScore - 0.777| < 1 / 1000 ∧
    |resB.compositeScore - 0.945| < 1 / 1000 := by
  refine ⟨scoreAll_AB_eval, rfl, rfl, rfl, rfl, ?_, ?_⟩
  · show |(1648 / 2121 : ℚ) - 0.777| < 1 / 1000
    rw [abs_sub_lt_iff]
    norm_num
  · show |(1091 / 1155 : ℚ) - 0.945| < 1 / 1000
    rw [abs_sub_lt_iff]
    norm_num

end Arbiter
